import Mathlib

/-!
Shallow embedding of the snc one-way directory synchronizer.

The embedding covers:
* the per-file update strategies and their factory
  (internal/stream strategy file: ModTimeStrategy.NeedsUpdate,
  SHA256Strategy.NeedsUpdate, NewUpdateStrategy);
* the copy pass (internal/stream sync file: Sync, processFileWithStrategy,
  copyFile) modelled as a fold over a linearised WalkDir event list;
* the missing-file sweep (internal/stream delete file: DeleteMissing);
* the run-level orchestration (internal/synchronizer/synchronizer.go:
  Synchronizer.Sync).

Filesystem modelling conventions:
* a path is its list of components relative to the relevant root;
* a regular file is its byte content (List Nat), its modification time at
  full precision (Int), and three capability bits mirroring the possible
  syscall outcomes the code branches on: statable (os.Stat succeeds),
  readable (os.Open and the subsequent io.Copy succeed), removable
  (os.Remove succeeds);
* the destination tree is an association list of bindings plus the set of
  directories that exist; os.Stat on a destination path distinguishes
  IsNotExist (no binding) from other stat errors (binding whose statable
  bit is false);
* the SHA-256 digest is modelled as an injective function of the byte
  stream (collision-free idealisation), so digest comparison is content
  comparison;
* WalkDir is linearised into a list of events: a callback invocation with a
  non-nil err argument (accessError), a directory entry, or a regular-file
  entry carrying the result of filepath.Rel (none when Rel fails) and the
  file itself.
-/

abbrev RelPath := List String

structure FileInfo where
  content : List Nat
  mtime : Int
  statable : Bool
  readable : Bool
  removable : Bool
deriving DecidableEq, Repr

/-- The byte size reported by os.Stat: the length of the content. -/
def FileInfo.size (f : FileInfo) : Nat := f.content.length

/-- One step of the linearised filepath.WalkDir traversal of the source
tree, as consumed by the callback in stream Sync. -/
inductive WalkEvent where
  | accessError : WalkEvent
  | dirEntry : RelPath → WalkEvent
  | fileEntry : Option RelPath → FileInfo → WalkEvent
deriving DecidableEq, Repr

/-- First binding for a key in an association list. -/
def lookupFile : List (RelPath × FileInfo) → RelPath → Option FileInfo
  | [], _ => none
  | e :: t, p => if e.1 = p then some e.2 else lookupFile t p

/-- Drop every binding for a key from an association list. -/
def eraseKey : List (RelPath × FileInfo) → RelPath → List (RelPath × FileInfo)
  | [], _ => []
  | e :: t, p => if e.1 = p then eraseKey t p else e :: eraseKey t p

/-- All proper ancestor directories of a path, root included; os.MkdirAll
on the parent of a path creates exactly these. -/
def parentDirs (p : RelPath) : List RelPath :=
  (List.range p.length).map (fun i => p.take i)

/-- The destination tree: file bindings plus existing directories. -/
structure DstFS where
  files : List (RelPath × FileInfo)
  dirs : List RelPath
deriving DecidableEq, Repr

/-- os.Stat on a destination path: none is IsNotExist; a binding whose
statable bit is false is a stat error of any other kind. -/
def DstFS.stat (fs : DstFS) (p : RelPath) : Option FileInfo :=
  lookupFile fs.files p

def DstFS.setFile (fs : DstFS) (p : RelPath) (f : FileInfo) : DstFS :=
  ⟨(p, f) :: eraseKey fs.files p, fs.dirs⟩

def DstFS.remove (fs : DstFS) (p : RelPath) : DstFS :=
  ⟨eraseKey fs.files p, fs.dirs⟩

/-- os.MkdirAll on the parent of p. -/
def DstFS.mkdirAll (fs : DstFS) (p : RelPath) : DstFS :=
  ⟨fs.files, parentDirs p ++ fs.dirs⟩

/-- Modelled digest for calculateSHA256: SHA-256 is treated as an injective
function of the byte stream (collision-free idealisation), so comparing
digests is comparing contents. -/
def calculateSHA256 (content : List Nat) : List Nat := content

/-- The two UpdateStrategy implementations. -/
inductive Strategy where
  | modtime : Strategy
  | sha256 : Strategy
deriving DecidableEq, Repr

/-- UpdateStrategy.NeedsUpdate. none models the error return.
ModTimeStrategy: stats both files (errors when either stat fails), then
reports true when the sizes differ or the modification times are not equal
at full precision. SHA256Strategy: hashes both files (errors when either
cannot be opened or read), then reports true when the digests differ. -/
def Strategy.NeedsUpdate : Strategy → FileInfo → FileInfo → Option Bool
  | .modtime, src, dst =>
    if src.statable = false then none
    else if dst.statable = false then none
    else if src.size ≠ dst.size then some true
    else if src.mtime ≠ dst.mtime then some true
    else some false
  | .sha256, src, dst =>
    if src.readable = false then none
    else if dst.readable = false then none
    else some (decide (calculateSHA256 src.content ≠ calculateSHA256 dst.content))

/-- NewUpdateStrategy: the strategy factory; none models the
unsupported-update-method error. -/
def NewUpdateStrategy : String → Option Strategy
  | "modtime" => some Strategy.modtime
  | "sha256" => some Strategy.sha256
  | _ => none

/-- The file a successful copyFile leaves at the destination: the source
bytes, the source modification time when the source can be statted for the
os.Chtimes call (otherwise the current time stays), and fresh capability
bits. -/
def copiedFileInfo (now : Int) (info : FileInfo) : FileInfo :=
  { content := info.content
    mtime := if info.statable then info.mtime else now
    statable := true
    readable := true
    removable := true }

/-- copyFile: ensure the parent directories exist, open the source (fails
when the source is unreadable, after the directories were already made),
create the destination and stream the bytes, then preserve the source
modification time when the source can be statted (a stat or chtimes
failure there only logs a warning, leaving the new file with the current
time). Returns the success flag and the new destination state. -/
def copyFile (now : Int) (info : FileInfo) (p : RelPath) (fs : DstFS) : Bool × DstFS :=
  let fs1 := fs.mkdirAll p
  if info.readable then
    (true, fs1.setFile p (copiedFileInfo now info))
  else
    (false, fs1)

/-- Outcome of processFileWithStrategy for one file: whether the call
returned nil, the relative path of a completed byte transfer when one
happened (the Copied success log line), and the destination state. -/
structure ProcResult where
  ok : Bool
  transferred : Option RelPath
  fs : DstFS
deriving DecidableEq, Repr

/-- processFileWithStrategy: fail on a Rel error; stat the destination and
copy when it does not exist; fail on any other stat error; otherwise ask
the strategy and copy exactly when it answers true. -/
def processFileWithStrategy (strat : Strategy) (now : Int) (rel : Option RelPath)
    (info : FileInfo) (fs : DstFS) : ProcResult :=
  match rel with
  | none => ⟨false, none, fs⟩
  | some p =>
    match fs.stat p with
    | none =>
      let r := copyFile now info p fs
      ⟨r.1, if r.1 then some p else none, r.2⟩
    | some g =>
      if g.statable then
        match strat.NeedsUpdate info g with
        | none => ⟨false, none, fs⟩
        | some true =>
          let r := copyFile now info p fs
          ⟨r.1, if r.1 then some p else none, r.2⟩
        | some false => ⟨true, none, fs⟩
      else ⟨false, none, fs⟩

/-- The four counters of the copy pass in stream Sync. -/
structure Tally where
  fileCount : Nat
  copiedCount : Nat
  skippedCount : Nat
  errorCount : Nat
deriving DecidableEq, Repr

def Tally.zero : Tally := ⟨0, 0, 0, 0⟩

/-- State threaded through the copy-pass walk: the counters, the
destination tree, and the relative paths of the completed transfers (the
Copied success log lines), most recent first. -/
structure PassState where
  tally : Tally
  fs : DstFS
  transfers : List RelPath
deriving DecidableEq, Repr

/-- One callback invocation of the copy-pass walk in stream Sync: a
non-nil err argument only counts an error; a directory is skipped; a file
bumps fileCount and then either copiedCount (nil return from
processFileWithStrategy) or errorCount. The callback always returns nil,
so the walk itself never fails. -/
def syncStep (strat : Strategy) (now : Int) (s : PassState) : WalkEvent → PassState
  | .accessError =>
    { s with tally := { s.tally with errorCount := s.tally.errorCount + 1 } }
  | .dirEntry _ => s
  | .fileEntry rel info =>
    let t := { s.tally with fileCount := s.tally.fileCount + 1 }
    let r := processFileWithStrategy strat now rel info s.fs
    if r.ok then
      { tally := { t with copiedCount := t.copiedCount + 1 }
        fs := r.fs
        transfers :=
          match r.transferred with
          | some p => p :: s.transfers
          | none => s.transfers }
    else
      { tally := { t with errorCount := t.errorCount + 1 }
        fs := r.fs
        transfers := s.transfers }

/-- The whole copy-pass walk over the linearised source events. -/
def streamSyncPass (strat : Strategy) (now : Int) (events : List WalkEvent)
    (fs : DstFS) : PassState :=
  events.foldl (syncStep strat now) ⟨Tally.zero, fs, []⟩

/-- stream Sync: create the strategy (none models the returned SyncError,
with the destination untouched), then run the walk. The walk callback
always returns nil, so WalkDir itself returns nil and Sync returns nil
regardless of the per-entry error count. -/
def streamSync (method : String) (now : Int) (events : List WalkEvent)
    (fs : DstFS) : Option PassState :=
  match NewUpdateStrategy method with
  | none => none
  | some strat => some (streamSyncPass strat now events fs)

/-- Outcome of the os.Stat probe of the source side in DeleteMissing. -/
inductive StatRes where
  | found : StatRes
  | notFound : StatRes
  | statErr : StatRes
deriving DecidableEq, Repr

/-- The three counters of DeleteMissing. -/
structure SweepTally where
  fileCount : Nat
  deletedCount : Nat
  errorCount : Nat
deriving DecidableEq, Repr

/-- One file step of the DeleteMissing walk: probe the source at the same
relative path; delete on IsNotExist (a failed os.Remove counts an error
and keeps the file), count an error and keep the file on any other stat
error, keep the file silently when the probe finds it. -/
def sweepStep (probe : RelPath → StatRes) (s : SweepTally × DstFS)
    (e : RelPath × FileInfo) : SweepTally × DstFS :=
  let t := { s.1 with fileCount := s.1.fileCount + 1 }
  match probe e.1 with
  | .notFound =>
    if e.2.removable then
      ({ t with deletedCount := t.deletedCount + 1 }, s.2.remove e.1)
    else
      ({ t with errorCount := t.errorCount + 1 }, s.2)
  | .statErr => ({ t with errorCount := t.errorCount + 1 }, s.2)
  | .found => (t, s.2)

/-- DeleteMissing: walk the destination tree (directories are skipped, so
only the file bindings are visited) and apply sweepStep to each. Its walk
callback always returns nil, so DeleteMissing itself returns nil. -/
def DeleteMissing (probe : RelPath → StatRes) (fs : DstFS) : SweepTally × DstFS :=
  fs.files.foldl (sweepStep probe) (⟨0, 0, 0⟩, fs)

/-- The parts of config.Config the orchestrator consults. -/
structure RunConfig where
  deleteMissing : Bool
  updateMethod : String
deriving DecidableEq, Repr

/-- Synchronizer.Sync: phase 1 validates the roots (the outcome is the
validationOk input; on failure only hasErrors is set and the run goes on);
phase 2 always runs stream Sync, setting hasErrors when it returns an
error (which only the strategy factory can cause); phase 3 runs
DeleteMissing when enabled, which never returns an error. The result is
the hasErrors flag (true models the non-nil completed-with-errors return)
and the final destination state. -/
def synchronizerSync (validationOk : Bool) (cfg : RunConfig) (now : Int)
    (events : List WalkEvent) (probe : RelPath → StatRes) (fs : DstFS) :
    Bool × DstFS :=
  let hasErr1 := !validationOk
  let phase2 :=
    match streamSync cfg.updateMethod now events fs with
    | none => (true, fs)
    | some st => (false, st.fs)
  let fs2 :=
    if cfg.deleteMissing then (DeleteMissing probe phase2.2).2 else phase2.2
  (hasErr1 || phase2.1, fs2)

/-- The regular-file bindings a walk presents: relative path and file, in
walk order, for the entries whose Rel computation succeeds. -/
def fileBindings (events : List WalkEvent) : List (RelPath × FileInfo) :=
  events.filterMap (fun ev =>
    match ev with
    | .fileEntry (some p) info => some (p, info)
    | _ => none)

/-- The relative paths of the walked regular files. -/
def relsOf (events : List WalkEvent) : List RelPath :=
  (fileBindings events).map (fun e => e.1)

/-- The relative path an event touches, if any. -/
def relOf : WalkEvent → Option RelPath
  | .fileEntry (some p) _ => some p
  | _ => none

/-- Number of walk callback invocations with a non-nil err argument. -/
def countAccess : List WalkEvent → Nat
  | [] => 0
  | WalkEvent.accessError :: t => countAccess t + 1
  | WalkEvent.dirEntry _ :: t => countAccess t
  | WalkEvent.fileEntry _ _ :: t => countAccess t

/-- Well-formed destination: the ancestors of every existing file binding
are existing directories. -/
def wfDirs (fs : DstFS) : Prop :=
  ∀ e ∈ fs.files, ∀ d ∈ parentDirs e.1, d ∈ fs.dirs

/-- Whether a source file, once copied, is judged up to date against its
own copy by the strategy (provided it was readable enough to be copied). -/
def selfUpToDate (strat : Strategy) (now : Int) (info : FileInfo) : Prop :=
  info.readable = true → strat.NeedsUpdate info (copiedFileInfo now info) = some false

def fsEmpty : DstFS := ⟨[], []⟩

def fileHello : FileInfo := ⟨[104, 101, 108, 108, 111], 5, true, true, true⟩

def fileWorld : FileInfo := ⟨[119, 111, 114, 108, 100], 7, true, true, true⟩

def fileUnreadable : FileInfo := ⟨[1, 2], 3, true, false, true⟩

/-- Same size and modification time as fileHello, different bytes. -/
def fileShadow : FileInfo := ⟨[120, 120, 120, 120, 120], 5, true, true, true⟩

def fileExtra : FileInfo := ⟨[9], 1, true, true, true⟩

/-- A one-file source walk used by concrete instances. -/
def evSingle : List WalkEvent := [WalkEvent.fileEntry (some (["a.txt"])) fileHello]

/-- A two-file source listing with exactly one unreadable file. -/
def lOneBad : List (RelPath × FileInfo) :=
  [((["good.txt"]), fileHello), ((["bad.txt"]), fileUnreadable)]

/-- A source-side probe that finds every path. -/
def probeFound : RelPath → StatRes := fun _ => StatRes.found

/-- A one-file destination tree used by concrete instances. -/
def dstKeep : DstFS := ⟨[((["keep.txt"]), fileHello)], []⟩

theorem lookupFile_eraseKey (l : List (RelPath × FileInfo)) (p q : RelPath) :
    lookupFile (eraseKey l p) q = if q = p then none else lookupFile l q := by
  induction l with
  | nil => simp [eraseKey, lookupFile]
  | cons e t ih =>
    by_cases h : e.1 = p
    · rw [eraseKey, if_pos h, ih]
      by_cases hq : q = p
      · simp [hq]
      · have hne : ¬(e.1 = q) := by
          rw [h]
          exact fun hh => hq hh.symm
        rw [if_neg hq, if_neg hq, lookupFile, if_neg hne]
    · rw [eraseKey, if_neg h, lookupFile]
      by_cases he : e.1 = q
      · have hqp : ¬(q = p) := fun hq => h (by rw [he, hq])
        rw [if_pos he, if_neg hqp, lookupFile, if_pos he]
      · rw [if_neg he, ih]
        by_cases hq : q = p
        · simp [hq]
        · rw [if_neg hq, if_neg hq, lookupFile, if_neg he]

theorem mem_of_mem_eraseKey {l : List (RelPath × FileInfo)} {p : RelPath}
    {e : RelPath × FileInfo} (h : e ∈ eraseKey l p) : e ∈ l := by
  induction l with
  | nil => simp [eraseKey] at h
  | cons a t ih =>
    rw [eraseKey] at h
    by_cases ha : a.1 = p
    · rw [if_pos ha] at h
      exact List.mem_cons_of_mem a (ih h)
    · rw [if_neg ha] at h
      rcases List.mem_cons.mp h with h1 | h1
      · exact h1 ▸ List.mem_cons_self a t
      · exact List.mem_cons_of_mem a (ih h1)

theorem lookupFile_of_mem_nodup {l : List (RelPath × FileInfo)}
    {p : RelPath} {f : FileInfo} (hm : (p, f) ∈ l)
    (hnd : (l.map (fun e => e.1)).Nodup) : lookupFile l p = some f := by
  induction l with
  | nil => simp at hm
  | cons a t ih =>
    rcases List.mem_cons.mp hm with h1 | h1
    · rw [lookupFile, ← h1]
      simp
    · have ha : a.1 ≠ p := by
        intro hq
        have : a.1 ∉ t.map (fun e => e.1) := (List.nodup_cons.mp hnd).1
        exact this (hq ▸ List.mem_map_of_mem (fun e => e.1) h1)
      rw [lookupFile, if_neg ha]
      exact ih h1 (List.nodup_cons.mp hnd).2

theorem stat_setFile (fs : DstFS) (p q : RelPath) (f : FileInfo) :
    (fs.setFile p f).stat q = if q = p then some f else fs.stat q := by
  rw [DstFS.setFile, DstFS.stat, lookupFile]
  by_cases h : q = p
  · simp [h]
  · rw [if_neg (fun hh : p = q => h hh.symm), if_neg h,
      lookupFile_eraseKey, if_neg h]
    rfl

theorem stat_remove (fs : DstFS) (p q : RelPath) :
    (fs.remove p).stat q = if q = p then none else fs.stat q := by
  rw [DstFS.remove, DstFS.stat, lookupFile_eraseKey]
  rfl

theorem stat_mkdirAll (fs : DstFS) (p q : RelPath) :
    (fs.mkdirAll p).stat q = fs.stat q := rfl

theorem relOf_fileEntry (rel : Option RelPath) (info : FileInfo) :
    relOf (WalkEvent.fileEntry rel info) = rel := by
  cases rel <;> rfl

theorem fileBindings_cons_access (t : List WalkEvent) :
    fileBindings (WalkEvent.accessError :: t) = fileBindings t := rfl

theorem fileBindings_cons_dir (p : RelPath) (t : List WalkEvent) :
    fileBindings (WalkEvent.dirEntry p :: t) = fileBindings t := rfl

theorem fileBindings_cons_file (p : RelPath) (info : FileInfo) (t : List WalkEvent) :
    fileBindings (WalkEvent.fileEntry (some p) info :: t) =
      (p, info) :: fileBindings t := rfl

theorem fileBindings_cons_none (info : FileInfo) (t : List WalkEvent) :
    fileBindings (WalkEvent.fileEntry none info :: t) = fileBindings t := rfl

theorem mem_relsOf_of_relOf {t : List WalkEvent} {ev : WalkEvent} {q : RelPath}
    (hm : ev ∈ t) (hr : relOf ev = some q) : q ∈ relsOf t := by
  cases ev with
  | accessError => simp [relOf] at hr
  | dirEntry p => simp [relOf] at hr
  | fileEntry rel info =>
    rw [relOf_fileEntry] at hr
    subst hr
    have : (q, info) ∈ fileBindings t := by
      rw [fileBindings, List.mem_filterMap]
      exact ⟨WalkEvent.fileEntry (some q) info, hm, rfl⟩
    exact List.mem_map_of_mem (fun e => e.1) this

theorem processFile_stat_frame (strat : Strategy) (now : Int) (rel : Option RelPath)
    (info : FileInfo) (fs : DstFS) (q : RelPath) (h : rel ≠ some q) :
    (processFileWithStrategy strat now rel info fs).fs.stat q = fs.stat q := by
  cases rel with
  | none => rfl
  | some p =>
    have hpq : ¬(q = p) := fun hh => h (by rw [hh])
    have hcopy : ∀ fs2 : DstFS, (copyFile now info p fs2).2.stat q = fs2.stat q := by
      intro fs2
      by_cases hr : info.readable <;>
        simp [copyFile, hr, stat_setFile, stat_mkdirAll, hpq]
    simp only [processFileWithStrategy]
    cases hstat : fs.stat p with
    | none => simpa using hcopy fs
    | some g =>
      by_cases hg : g.statable = true
      · cases hnu : strat.NeedsUpdate info g with
        | none => simp [hg, hnu]
        | some b =>
          cases b with
          | true => simpa [hg, hnu] using hcopy fs
          | false => simp [hg, hnu]
      · simp [hg]

theorem syncStep_fs_file (strat : Strategy) (now : Int) (s : PassState)
    (rel : Option RelPath) (info : FileInfo) :
    (syncStep strat now s (WalkEvent.fileEntry rel info)).fs =
      (processFileWithStrategy strat now rel info s.fs).fs := by
  simp only [syncStep]
  split <;> rfl

theorem syncStep_stat_frame (strat : Strategy) (now : Int) (s : PassState)
    (ev : WalkEvent) (q : RelPath) (h : relOf ev ≠ some q) :
    (syncStep strat now s ev).fs.stat q = s.fs.stat q := by
  cases ev with
  | accessError => rfl
  | dirEntry p => rfl
  | fileEntry rel info =>
    rw [relOf_fileEntry] at h
    rw [syncStep_fs_file]
    exact processFile_stat_frame strat now rel info s.fs q h

theorem syncStep_errorCount_le (strat : Strategy) (now : Int) (s : PassState)
    (ev : WalkEvent) :
    s.tally.errorCount ≤ (syncStep strat now s ev).tally.errorCount := by
  cases ev with
  | accessError => exact Nat.le_succ _
  | dirEntry p => exact Nat.le_refl _
  | fileEntry rel info =>
    simp only [syncStep]
    split
    · exact Nat.le_refl _
    · exact Nat.le_succ _

theorem pass_errorCount_le (strat : Strategy) (now : Int) (evs : List WalkEvent) :
    ∀ s : PassState,
      s.tally.errorCount ≤ (evs.foldl (syncStep strat now) s).tally.errorCount := by
  induction evs with
  | nil => intro s; exact Nat.le_refl _
  | cons ev t ih =>
    intro s
    rw [List.foldl_cons]
    exact Nat.le_trans (syncStep_errorCount_le strat now s ev) (ih _)

theorem pass_stat_frame (strat : Strategy) (now : Int) (evs : List WalkEvent) :
    ∀ (s : PassState) (q : RelPath), (∀ ev ∈ evs, relOf ev ≠ some q) →
      (evs.foldl (syncStep strat now) s).fs.stat q = s.fs.stat q := by
  induction evs with
  | nil => intro s q _; rfl
  | cons ev t ih =>
    intro s q h
    rw [List.foldl_cons, ih _ q (fun e he => h e (List.mem_cons_of_mem ev he)),
      syncStep_stat_frame strat now s ev q (h ev (List.mem_cons_self ev t))]

theorem syncStep_skipped (strat : Strategy) (now : Int) (s : PassState)
    (ev : WalkEvent) :
    (syncStep strat now s ev).tally.skippedCount = s.tally.skippedCount := by
  cases ev with
  | accessError => rfl
  | dirEntry p => rfl
  | fileEntry rel info =>
    simp only [syncStep]
    split <;> rfl

theorem pass_skipped (strat : Strategy) (now : Int) (evs : List WalkEvent) :
    ∀ s : PassState,
      (evs.foldl (syncStep strat now) s).tally.skippedCount =
        s.tally.skippedCount := by
  induction evs with
  | nil => intro s; rfl
  | cons ev t ih =>
    intro s
    rw [List.foldl_cons, ih, syncStep_skipped]

theorem pass_counters (strat : Strategy) (now : Int) (evs : List WalkEvent) :
    ∀ s : PassState,
      (evs.foldl (syncStep strat now) s).tally.fileCount + countAccess evs +
          s.tally.copiedCount + s.tally.errorCount =
        (evs.foldl (syncStep strat now) s).tally.copiedCount +
          (evs.foldl (syncStep strat now) s).tally.errorCount +
          s.tally.fileCount := by
  induction evs with
  | nil => intro s; simp [countAccess]; omega
  | cons ev t ih =>
    intro s
    rw [List.foldl_cons]
    have h := ih (syncStep strat now s ev)
    cases ev with
    | accessError =>
      simp only [syncStep, countAccess] at h ⊢
      omega
    | dirEntry p =>
      simp only [syncStep, countAccess] at h ⊢
      omega
    | fileEntry rel info =>
      rw [countAccess]
      by_cases hok : (processFileWithStrategy strat now rel info s.fs).ok = true
      · simp only [syncStep, hok, if_true] at h ⊢
        omega
      · rw [Bool.not_eq_true] at hok
        simp only [syncStep, hok, Bool.false_eq_true, if_false] at h ⊢
        omega

theorem selfUpToDate_of_statable (strat : Strategy) (now : Int) (info : FileInfo)
    (h : info.statable = true) : selfUpToDate strat now info := by
  intro hr
  cases strat <;>
    simp [Strategy.NeedsUpdate, copiedFileInfo, h, hr, FileInfo.size, calculateSHA256]

theorem selfUpToDate_sha256 (now : Int) (info : FileInfo) :
    selfUpToDate Strategy.sha256 now info := by
  intro hr
  simp [Strategy.NeedsUpdate, copiedFileInfo, hr, calculateSHA256]

theorem copyFile_fail (now : Int) (info : FileInfo) (p : RelPath) (fs : DstFS)
    (h : info.readable = false) : (copyFile now info p fs).1 = false := by
  simp [copyFile, h]

theorem copyFile_ok (now : Int) (info : FileInfo) (p : RelPath) (fs : DstFS)
    (h : info.readable = true) :
    copyFile now info p fs = (true, (fs.mkdirAll p).setFile p (copiedFileInfo now info)) := by
  simp [copyFile, h]

theorem processFile_ok_post (strat : Strategy) (now : Int) (p : RelPath)
    (info : FileInfo) (fs : DstFS) (hself : selfUpToDate strat now info)
    (hok : (processFileWithStrategy strat now (some p) info fs).ok = true) :
    ∃ f, (processFileWithStrategy strat now (some p) info fs).fs.stat p = some f ∧
      f.statable = true ∧ strat.NeedsUpdate info f = some false := by
  simp only [processFileWithStrategy] at hok ⊢
  cases hstat : fs.stat p with
  | none =>
    simp only [hstat] at hok ⊢
    have hr : info.readable = true := by
      by_contra hr
      rw [Bool.not_eq_true] at hr
      rw [copyFile_fail now info p fs hr] at hok
      exact Bool.false_ne_true hok
    refine ⟨copiedFileInfo now info, ?_, rfl, hself hr⟩
    rw [copyFile_ok now info p fs hr]
    simp [stat_setFile]
  | some g =>
    by_cases hg : g.statable = true
    · cases hnu : strat.NeedsUpdate info g with
      | none => simp [hstat, hg, hnu] at hok
      | some b =>
        cases b with
        | true =>
          simp only [hstat, hg, hnu, if_true] at hok ⊢
          have hr : info.readable = true := by
            by_contra hr
            rw [Bool.not_eq_true] at hr
            rw [copyFile_fail now info p fs hr] at hok
            exact Bool.false_ne_true hok
          refine ⟨copiedFileInfo now info, ?_, rfl, hself hr⟩
          rw [copyFile_ok now info p fs hr]
          simp [stat_setFile]
        | false =>
          refine ⟨g, ?_, hg, hnu⟩
          simp [hstat, hg, hnu]
    · rw [Bool.not_eq_true] at hg
      simp [hstat, hg] at hok

theorem processFile_upToDate (strat : Strategy) (now : Int) (p : RelPath)
    (info : FileInfo) (fs : DstFS) (f : FileInfo)
    (hstat : fs.stat p = some f) (hst : f.statable = true)
    (hupd : strat.NeedsUpdate info f = some false) :
    processFileWithStrategy strat now (some p) info fs = ⟨true, none, fs⟩ := by
  simp [processFileWithStrategy, hstat, hst, hupd]

theorem pass_ok_events (strat : Strategy) (now : Int) (evs : List WalkEvent) :
    ∀ s : PassState,
      (evs.foldl (syncStep strat now) s).tally.errorCount = s.tally.errorCount →
      ∀ ev ∈ evs, (∃ p, ev = WalkEvent.dirEntry p) ∨
        ∃ p info, ev = WalkEvent.fileEntry (some p) info := by
  induction evs with
  | nil =>
    intro s _ ev hev
    simp at hev
  | cons e t ih =>
    intro s h ev hev
    rw [List.foldl_cons] at h
    have hle := pass_errorCount_le strat now t (syncStep strat now s e)
    have hstep := syncStep_errorCount_le strat now s e
    rcases List.mem_cons.mp hev with he | he
    · subst he
      cases ev with
      | accessError =>
        exfalso
        have h1 : (syncStep strat now s WalkEvent.accessError).tally.errorCount =
            s.tally.errorCount + 1 := rfl
        omega
      | dirEntry p => exact Or.inl ⟨p, rfl⟩
      | fileEntry rel info =>
        cases rel with
        | some p => exact Or.inr ⟨p, info, rfl⟩
        | none =>
          exfalso
          have h1 : (syncStep strat now s (WalkEvent.fileEntry none info)).tally.errorCount =
              s.tally.errorCount + 1 := by
            simp [syncStep, processFileWithStrategy]
          omega
    · exact ih (syncStep strat now s e) (by omega) ev he

theorem relsOf_cons_file (p : RelPath) (info : FileInfo) (t : List WalkEvent) :
    relsOf (WalkEvent.fileEntry (some p) info :: t) = p :: relsOf t := rfl

theorem pass_post (strat : Strategy) (now : Int) (evs : List WalkEvent) :
    ∀ s : PassState, (relsOf evs).Nodup →
      (∀ e ∈ fileBindings evs, selfUpToDate strat now e.2) →
      (evs.foldl (syncStep strat now) s).tally.errorCount = s.tally.errorCount →
      ∀ e ∈ fileBindings evs, ∃ f,
        (evs.foldl (syncStep strat now) s).fs.stat e.1 = some f ∧
        f.statable = true ∧ strat.NeedsUpdate e.2 f = some false := by
  induction evs with
  | nil =>
    intro s _ _ _ e he
    simp [fileBindings] at he
  | cons ev t ih =>
    intro s hnd hself herr e he
    rw [List.foldl_cons] at herr ⊢
    have hle := pass_errorCount_le strat now t (syncStep strat now s ev)
    have hstep := syncStep_errorCount_le strat now s ev
    have herrT : (t.foldl (syncStep strat now) (syncStep strat now s ev)).tally.errorCount =
        (syncStep strat now s ev).tally.errorCount := by omega
    cases ev with
    | accessError =>
      exfalso
      have h1 : (syncStep strat now s WalkEvent.accessError).tally.errorCount =
          s.tally.errorCount + 1 := rfl
      omega
    | dirEntry q =>
      exact ih s hnd hself herrT e he
    | fileEntry rel info =>
      cases rel with
      | none =>
        exfalso
        have h1 : (syncStep strat now s (WalkEvent.fileEntry none info)).tally.errorCount =
            s.tally.errorCount + 1 := by
          simp [syncStep, processFileWithStrategy]
        omega
      | some p =>
        have hok : (processFileWithStrategy strat now (some p) info s.fs).ok = true := by
          by_contra hok
          have h1 : (syncStep strat now s (WalkEvent.fileEntry (some p) info)).tally.errorCount =
              s.tally.errorCount + 1 := by
            simp only [syncStep]
            rw [if_neg hok]
          omega
        rw [fileBindings_cons_file] at he
        rw [relsOf_cons_file] at hnd
        rcases List.mem_cons.mp he with hhd | htl
        · subst hhd
          obtain ⟨f, hf1, hf2, hf3⟩ := processFile_ok_post strat now p info s.fs
            (hself (p, info) (by rw [fileBindings_cons_file]; exact List.mem_cons_self _ _))
            hok
          refine ⟨f, ?_, hf2, hf3⟩
          have hfr : ∀ ev2 ∈ t, relOf ev2 ≠ some p := by
            intro ev2 hev2 hcon
            exact (List.nodup_cons.mp hnd).1 (mem_relsOf_of_relOf hev2 hcon)
          rw [pass_stat_frame strat now t _ p hfr, syncStep_fs_file]
          exact hf1
        · exact ih (syncStep strat now s (WalkEvent.fileEntry (some p) info))
            (List.nodup_cons.mp hnd).2
            (fun e2 he2 => hself e2
              (by rw [fileBindings_cons_file]; exact List.mem_cons_of_mem _ he2))
            herrT e htl

theorem syncStep_upToDate (strat : Strategy) (now : Int) (s : PassState)
    (p : RelPath) (info : FileInfo) (f : FileInfo)
    (hf1 : s.fs.stat p = some f) (hf2 : f.statable = true)
    (hf3 : strat.NeedsUpdate info f = some false) :
    (syncStep strat now s (WalkEvent.fileEntry (some p) info)).fs = s.fs ∧
    (syncStep strat now s (WalkEvent.fileEntry (some p) info)).transfers = s.transfers ∧
    (syncStep strat now s (WalkEvent.fileEntry (some p) info)).tally.errorCount =
      s.tally.errorCount := by
  have hproc := processFile_upToDate strat now p info s.fs f hf1 hf2 hf3
  simp only [syncStep, hproc]
  exact ⟨rfl, rfl, rfl⟩

theorem pass_stable (strat : Strategy) (now : Int) (evs : List WalkEvent) :
    ∀ s : PassState,
      (∀ ev ∈ evs, (∃ p, ev = WalkEvent.dirEntry p) ∨
        ∃ p info, ev = WalkEvent.fileEntry (some p) info ∧
          ∃ f, s.fs.stat p = some f ∧ f.statable = true ∧
            strat.NeedsUpdate info f = some false) →
      (evs.foldl (syncStep strat now) s).fs = s.fs ∧
      (evs.foldl (syncStep strat now) s).transfers = s.transfers ∧
      (evs.foldl (syncStep strat now) s).tally.errorCount = s.tally.errorCount := by
  induction evs with
  | nil =>
    intro s _
    exact ⟨rfl, rfl, rfl⟩
  | cons ev t ih =>
    intro s h
    rw [List.foldl_cons]
    rcases h ev (List.mem_cons_self ev t) with ⟨p, hp⟩ | ⟨p, info, hev, f, hf1, hf2, hf3⟩
    · subst hp
      exact ih s (fun e2 he2 => h e2 (List.mem_cons_of_mem _ he2))
    · subst hev
      obtain ⟨hsfs, hstr, hserr⟩ := syncStep_upToDate strat now s p info f hf1 hf2 hf3
      obtain ⟨ifs, itr, ierr⟩ :=
        ih (syncStep strat now s (WalkEvent.fileEntry (some p) info))
          (fun e2 he2 => by
            rw [hsfs]
            exact h e2 (List.mem_cons_of_mem _ he2))
      refine ⟨?_, ?_, ?_⟩
      · rw [ifs, hsfs]
      · rw [itr, hstr]
      · rw [ierr, hserr]

theorem lookupFile_mem {l : List (RelPath × FileInfo)} {p : RelPath} {f : FileInfo}
    (h : lookupFile l p = some f) : (p, f) ∈ l := by
  induction l with
  | nil => simp [lookupFile] at h
  | cons e t ih =>
    rw [lookupFile] at h
    by_cases he : e.1 = p
    · rw [if_pos he] at h
      have : e = (p, f) := by
        obtain ⟨e1, e2⟩ := e
        simp at he
        simp at h
        rw [he, h]
      exact this ▸ List.mem_cons_self e t
    · rw [if_neg he] at h
      exact List.mem_cons_of_mem e (ih h)

theorem pass_fresh (strat : Strategy) (now : Int) (l : List (RelPath × FileInfo)) :
    ∀ s : PassState,
      (l.map (fun e => e.1)).Nodup →
      (∀ e ∈ l, s.fs.stat e.1 = none) →
      ((l.map (fun e => WalkEvent.fileEntry (some e.1) e.2)).foldl
          (syncStep strat now) s).tally.fileCount = s.tally.fileCount + l.length ∧
      ((l.map (fun e => WalkEvent.fileEntry (some e.1) e.2)).foldl
          (syncStep strat now) s).tally.copiedCount =
        s.tally.copiedCount + l.countP (fun e => e.2.readable) ∧
      ((l.map (fun e => WalkEvent.fileEntry (some e.1) e.2)).foldl
          (syncStep strat now) s).tally.errorCount =
        s.tally.errorCount + l.countP (fun e => !e.2.readable) ∧
      ((l.map (fun e => WalkEvent.fileEntry (some e.1) e.2)).foldl
          (syncStep strat now) s).transfers.length =
        s.transfers.length + l.countP (fun e => e.2.readable) ∧
      (∀ e ∈ l, e.2.readable = true →
        ((l.map (fun e => WalkEvent.fileEntry (some e.1) e.2)).foldl
            (syncStep strat now) s).fs.stat e.1 = some (copiedFileInfo now e.2)) := by
  induction l with
  | nil =>
    intro s _ _
    refine ⟨by simp, by simp, by simp, by simp, ?_⟩
    intro e he
    simp at he
  | cons a t ih =>
    intro s hnd hnone
    have hstat : s.fs.stat a.1 = none := hnone a (List.mem_cons_self a t)
    have hka : a.1 ∉ t.map (fun e => e.1) := by
      rw [List.map_cons] at hnd
      exact (List.nodup_cons.mp hnd).1
    have hndt : (t.map (fun e => e.1)).Nodup := by
      rw [List.map_cons] at hnd
      exact (List.nodup_cons.mp hnd).2
    have hne : ∀ e ∈ t, e.1 ≠ a.1 := by
      intro e he hcon
      exact hka (hcon ▸ List.mem_map_of_mem (fun e => e.1) he)
    rw [List.map_cons, List.foldl_cons]
    by_cases hr : a.2.readable = true
    · have hproc : processFileWithStrategy strat now (some a.1) a.2 s.fs =
          ⟨true, some a.1, (s.fs.mkdirAll a.1).setFile a.1 (copiedFileInfo now a.2)⟩ := by
        simp [processFileWithStrategy, hstat, copyFile_ok now a.2 a.1 s.fs hr]
      have hb : (syncStep strat now s (WalkEvent.fileEntry (some a.1) a.2)).tally.fileCount
            = s.tally.fileCount + 1 ∧
          (syncStep strat now s (WalkEvent.fileEntry (some a.1) a.2)).tally.copiedCount
            = s.tally.copiedCount + 1 ∧
          (syncStep strat now s (WalkEvent.fileEntry (some a.1) a.2)).tally.errorCount
            = s.tally.errorCount ∧
          (syncStep strat now s (WalkEvent.fileEntry (some a.1) a.2)).transfers
            = a.1 :: s.transfers ∧
          (syncStep strat now s (WalkEvent.fileEntry (some a.1) a.2)).fs
            = (s.fs.mkdirAll a.1).setFile a.1 (copiedFileInfo now a.2) := by
        simp only [syncStep, hproc]
        exact ⟨rfl, rfl, rfl, rfl, rfl⟩
      obtain ⟨hb1, hb2, hb3, hb4, hb5⟩ := hb
      have hnone2 : ∀ e ∈ t,
          (syncStep strat now s (WalkEvent.fileEntry (some a.1) a.2)).fs.stat e.1 = none := by
        intro e he
        rw [hb5, stat_setFile, if_neg (hne e he), stat_mkdirAll]
        exact hnone e (List.mem_cons_of_mem a he)
      obtain ⟨i1, i2, i3, i4, i5⟩ :=
        ih (syncStep strat now s (WalkEvent.fileEntry (some a.1) a.2)) hndt hnone2
      refine ⟨?_, ?_, ?_, ?_, ?_⟩
      · rw [i1, hb1, List.length_cons]
        omega
      · rw [i2, hb2, List.countP_cons]
        simp [hr]
        omega
      · rw [i3, hb3, List.countP_cons]
        simp [hr]
      · rw [i4, hb4, List.countP_cons]
        simp [hr]
        omega
      · intro e he hre
        rcases List.mem_cons.mp he with hhd | htl
        · subst hhd
          have hfr : ∀ ev2 ∈ t.map (fun e => WalkEvent.fileEntry (some e.1) e.2),
              relOf ev2 ≠ some e.1 := by
            intro ev2 hev2 hcon
            obtain ⟨e2, he2, rfl⟩ := List.mem_map.mp hev2
            rw [relOf_fileEntry] at hcon
            exact hne e2 he2 (Option.some.inj hcon)
          rw [pass_stat_frame strat now _ _ e.1 hfr, hb5, stat_setFile, if_pos rfl]
        · exact i5 e htl hre
    · rw [Bool.not_eq_true] at hr
      have hcf : copyFile now a.2 a.1 s.fs = (false, s.fs.mkdirAll a.1) := by
        simp [copyFile, hr]
      have hproc : processFileWithStrategy strat now (some a.1) a.2 s.fs =
          ⟨false, none, s.fs.mkdirAll a.1⟩ := by
        simp [processFileWithStrategy, hstat, hcf]
      have hb : (syncStep strat now s (WalkEvent.fileEntry (some a.1) a.2)).tally.fileCount
            = s.tally.fileCount + 1 ∧
          (syncStep strat now s (WalkEvent.fileEntry (some a.1) a.2)).tally.copiedCount
            = s.tally.copiedCount ∧
          (syncStep strat now s (WalkEvent.fileEntry (some a.1) a.2)).tally.errorCount
            = s.tally.errorCount + 1 ∧
          (syncStep strat now s (WalkEvent.fileEntry (some a.1) a.2)).transfers
            = s.transfers ∧
          (syncStep strat now s (WalkEvent.fileEntry (some a.1) a.2)).fs
            = s.fs.mkdirAll a.1 := by
        simp only [syncStep, hproc]
        exact ⟨rfl, rfl, rfl, rfl, rfl⟩
      obtain ⟨hb1, hb2, hb3, hb4, hb5⟩ := hb
      have hnone2 : ∀ e ∈ t,
          (syncStep strat now s (WalkEvent.fileEntry (some a.1) a.2)).fs.stat e.1 = none := by
        intro e he
        rw [hb5, stat_mkdirAll]
        exact hnone e (List.mem_cons_of_mem a he)
      obtain ⟨i1, i2, i3, i4, i5⟩ :=
        ih (syncStep strat now s (WalkEvent.fileEntry (some a.1) a.2)) hndt hnone2
      refine ⟨?_, ?_, ?_, ?_, ?_⟩
      · rw [i1, hb1, List.length_cons]
        omega
      · rw [i2, hb2, List.countP_cons]
        simp [hr]
      · rw [i3, hb3, List.countP_cons]
        simp [hr]
        omega
      · rw [i4, hb4, List.countP_cons]
        simp [hr]
      · intro e he hre
        rcases List.mem_cons.mp he with hhd | htl
        · exfalso
          subst hhd
          rw [hre] at hr
          exact Bool.noConfusion hr
        · exact i5 e htl hre

theorem sweepStep_stat_frame (probe : RelPath → StatRes) (s : SweepTally × DstFS)
    (e : RelPath × FileInfo) (q : RelPath) (h : e.1 ≠ q) :
    (sweepStep probe s e).2.stat q = s.2.stat q := by
  have hq : ¬(q = e.1) := fun hc => h hc.symm
  rcases hp : probe e.1 with _ | _ | _
  · simp [sweepStep, hp]
  · by_cases hrm : e.2.removable = true
    · simp [sweepStep, hp, hrm, stat_remove, hq]
    · rw [Bool.not_eq_true] at hrm
      simp [sweepStep, hp, hrm]
  · simp [sweepStep, hp]

theorem sweep_stat_frame (probe : RelPath → StatRes) (l : List (RelPath × FileInfo)) :
    ∀ (s : SweepTally × DstFS) (q : RelPath), (∀ e ∈ l, e.1 ≠ q) →
      (l.foldl (sweepStep probe) s).2.stat q = s.2.stat q := by
  induction l with
  | nil => intro s q _; rfl
  | cons e t ih =>
    intro s q h
    rw [List.foldl_cons, ih _ q (fun x hx => h x (List.mem_cons_of_mem e hx)),
      sweepStep_stat_frame probe s e q (h e (List.mem_cons_self e t))]

theorem sweepStep_err_le (probe : RelPath → StatRes) (s : SweepTally × DstFS)
    (e : RelPath × FileInfo) :
    s.1.errorCount ≤ (sweepStep probe s e).1.errorCount := by
  rcases hp : probe e.1 with _ | _ | _
  · simp only [sweepStep, hp]
    omega
  · by_cases hrm : e.2.removable = true
    · simp only [sweepStep, hp, hrm, if_true]
      omega
    · rw [Bool.not_eq_true] at hrm
      simp only [sweepStep, hp, hrm, Bool.false_eq_true, if_false]
      omega
  · simp only [sweepStep, hp]
    omega

theorem sweep_err_le (probe : RelPath → StatRes) (l : List (RelPath × FileInfo)) :
    ∀ s : SweepTally × DstFS,
      s.1.errorCount ≤ (l.foldl (sweepStep probe) s).1.errorCount := by
  induction l with
  | nil => intro s; exact Nat.le_refl _
  | cons e t ih =>
    intro s
    rw [List.foldl_cons]
    exact Nat.le_trans (sweepStep_err_le probe s e) (ih _)

theorem processFile_dirs_mono (strat : Strategy) (now : Int) (rel : Option RelPath)
    (info : FileInfo) (fs : DstFS) (d : RelPath) (h : d ∈ fs.dirs) :
    d ∈ (processFileWithStrategy strat now rel info fs).fs.dirs := by
  have hcopy : ∀ fs2 : DstFS, d ∈ fs2.dirs → d ∈ (copyFile now info (rel.getD []) fs2).2.dirs := by
    intro fs2 h2
    by_cases hr : info.readable = true <;>
      simp [copyFile, hr, DstFS.mkdirAll, DstFS.setFile, h2]
  cases rel with
  | none => exact h
  | some p =>
    simp only [processFileWithStrategy]
    cases hstat : fs.stat p with
    | none => exact hcopy fs h
    | some g =>
      by_cases hg : g.statable = true
      · cases hnu : strat.NeedsUpdate info g with
        | none => simp only [hg, hnu, if_true]; exact h
        | some b =>
          cases b with
          | true => simp only [hg, hnu, if_true]; exact hcopy fs h
          | false => simp only [hg, hnu, if_true]; exact h
      · rw [Bool.not_eq_true] at hg
        simp only [hg, Bool.false_eq_true, if_false]
        exact h

theorem pass_dirs_mono (strat : Strategy) (now : Int) (evs : List WalkEvent) :
    ∀ (s : PassState) (d : RelPath), d ∈ s.fs.dirs →
      d ∈ (evs.foldl (syncStep strat now) s).fs.dirs := by
  induction evs with
  | nil => intro s d h; exact h
  | cons ev t ih =>
    intro s d h
    rw [List.foldl_cons]
    refine ih _ d ?_
    cases ev with
    | accessError => exact h
    | dirEntry p => exact h
    | fileEntry rel info =>
      rw [syncStep_fs_file]
      exact processFile_dirs_mono strat now rel info s.fs d h

theorem wf_mkdirAll (fs : DstFS) (p : RelPath) (h : wfDirs fs) :
    wfDirs (fs.mkdirAll p) := by
  intro e he d hd
  exact List.mem_append_right _ (h e he d hd)

theorem wf_copyFile (now : Int) (info : FileInfo) (p : RelPath) (fs : DstFS)
    (h : wfDirs fs) : wfDirs (copyFile now info p fs).2 := by
  by_cases hr : info.readable = true
  · rw [copyFile_ok now info p fs hr]
    intro e he d hd
    rcases List.mem_cons.mp he with hhd | htl
    · subst hhd
      exact List.mem_append_left _ hd
    · exact List.mem_append_right _ (h e (mem_of_mem_eraseKey htl) d hd)
  · rw [Bool.not_eq_true] at hr
    have : copyFile now info p fs = (false, fs.mkdirAll p) := by
      simp [copyFile, hr]
    rw [this]
    exact wf_mkdirAll fs p h

theorem wf_processFile (strat : Strategy) (now : Int) (rel : Option RelPath)
    (info : FileInfo) (fs : DstFS) (h : wfDirs fs) :
    wfDirs (processFileWithStrategy strat now rel info fs).fs := by
  cases rel with
  | none => exact h
  | some p =>
    simp only [processFileWithStrategy]
    cases hstat : fs.stat p with
    | none => exact wf_copyFile now info p fs h
    | some g =>
      by_cases hg : g.statable = true
      · cases hnu : strat.NeedsUpdate info g with
        | none => simp only [hg, hnu, if_true]; exact h
        | some b =>
          cases b with
          | true => simp only [hg, hnu, if_true]; exact wf_copyFile now info p fs h
          | false => simp only [hg, hnu, if_true]; exact h
      · rw [Bool.not_eq_true] at hg
        simp only [hg, Bool.false_eq_true, if_false]
        exact h

theorem wf_pass (strat : Strategy) (now : Int) (evs : List WalkEvent) :
    ∀ s : PassState, wfDirs s.fs →
      wfDirs (evs.foldl (syncStep strat now) s).fs := by
  induction evs with
  | nil => intro s h; exact h
  | cons ev t ih =>
    intro s h
    rw [List.foldl_cons]
    refine ih _ ?_
    cases ev with
    | accessError => exact h
    | dirEntry p => exact h
    | fileEntry rel info =>
      rw [syncStep_fs_file]
      exact wf_processFile strat now rel info s.fs h

theorem countP_readable_split (l : List (RelPath × FileInfo)) :
    l.countP (fun e => e.2.readable) + l.countP (fun e => !e.2.readable) = l.length := by
  induction l with
  | nil => rfl
  | cons a t ih =>
    rw [List.countP_cons, List.countP_cons, List.length_cons]
    by_cases hr : a.2.readable = true
    · simp [hr]
      omega
    · rw [Bool.not_eq_true] at hr
      simp [hr]
      omega

theorem sha256_upToDate_content {src dst : FileInfo}
    (h : Strategy.sha256.NeedsUpdate src dst = some false) :
    dst.content = src.content := by
  by_cases h1 : src.readable = false
  · simp [Strategy.NeedsUpdate, h1] at h
  · by_cases h2 : dst.readable = false
    · simp [Strategy.NeedsUpdate, h1, h2] at h
    · simp [Strategy.NeedsUpdate, h1, h2, calculateSHA256] at h
      exact h.symm

/-- C3: the spec scenario claims that a second copy pass over the already
synchronized two-file tree (a.txt, sub/b.txt) tallies 0 copied, 2 skipped,
0 errors. The code contradicts its own skipped counter: stream Sync
increments copiedCount for every file whose processing returns nil, the
up-to-date branch included, and never increments skippedCount, so the
logged tally is 2 copied, 0 skipped, 0 errors even though no byte transfer
happens (transfers is empty), under both strategies. -/
theorem C3_code_behavior :
    (streamSyncPass Strategy.modtime 0
        [WalkEvent.fileEntry (some (["a.txt"])) fileHello,
         WalkEvent.dirEntry (["sub"]),
         WalkEvent.fileEntry (some (["sub", "b.txt"])) fileWorld]
        ⟨[((["a.txt"]), fileHello), ((["sub", "b.txt"]), fileWorld)],
          [[], ["sub"]]⟩).tally = ⟨2, 2, 0, 0⟩ ∧
    (streamSyncPass Strategy.modtime 0
        [WalkEvent.fileEntry (some (["a.txt"])) fileHello,
         WalkEvent.dirEntry (["sub"]),
         WalkEvent.fileEntry (some (["sub", "b.txt"])) fileWorld]
        ⟨[((["a.txt"]), fileHello), ((["sub", "b.txt"]), fileWorld)],
          [[], ["sub"]]⟩).transfers = [] ∧
    (streamSyncPass Strategy.sha256 0
        [WalkEvent.fileEntry (some (["a.txt"])) fileHello,
         WalkEvent.dirEntry (["sub"]),
         WalkEvent.fileEntry (some (["sub", "b.txt"])) fileWorld]
        ⟨[((["a.txt"]), fileHello), ((["sub", "b.txt"]), fileWorld)],
          [[], ["sub"]]⟩).tally = ⟨2, 2, 0, 0⟩ := by
  exact ⟨by decide, by decide, by decide⟩

/-- C6: for stat-able files, the modtime strategy reports needs-update
exactly when the sizes differ or the modification times differ at full
precision, and up-to-date exactly when both agree. -/
theorem C6_modtime_iff (src dst : FileInfo) (h1 : src.statable = true)
    (h2 : dst.statable = true) :
    (Strategy.modtime.NeedsUpdate src dst = some true ↔
      (src.size ≠ dst.size ∨ src.mtime ≠ dst.mtime)) ∧
    (Strategy.modtime.NeedsUpdate src dst = some false ↔
      (src.size = dst.size ∧ src.mtime = dst.mtime)) := by
  by_cases hs : src.size = dst.size
  · by_cases hm : src.mtime = dst.mtime
    · simp [Strategy.NeedsUpdate, h1, h2, hs, hm]
    · simp [Strategy.NeedsUpdate, h1, h2, hs, hm]
  · simp [Strategy.NeedsUpdate, h1, h2, hs]

/-- Closed instance of C6_modtime_iff at concrete stat-able files. -/
theorem C6_witness :
    (fileHello.statable = true ∧ fileWorld.statable = true) ∧
    ((Strategy.modtime.NeedsUpdate fileHello fileWorld = some true ↔
      (fileHello.size ≠ fileWorld.size ∨ fileHello.mtime ≠ fileWorld.mtime)) ∧
     (Strategy.modtime.NeedsUpdate fileHello fileWorld = some false ↔
      (fileHello.size = fileWorld.size ∧ fileHello.mtime = fileWorld.mtime))) :=
  ⟨⟨rfl, rfl⟩, C6_modtime_iff fileHello fileWorld rfl rfl⟩

/-- C10 counterexample: a walk containing one callback invocation with a
non-nil err argument has files-seen 0, copied 0, errors 1, so the claimed
equation files-seen = copied + errors fails. -/
theorem C10_counterexample :
    ¬ ((streamSyncPass Strategy.modtime 0 [WalkEvent.accessError] fsEmpty).tally.fileCount =
        (streamSyncPass Strategy.modtime 0 [WalkEvent.accessError] fsEmpty).tally.copiedCount +
          (streamSyncPass Strategy.modtime 0 [WalkEvent.accessError] fsEmpty).tally.errorCount) := by
  decide

/-- C10 (amended): at the end of every copy-pass walk the skipped counter
is zero and files-seen plus the number of access-error callbacks equals
copied plus errors; equivalently files-seen = copied + per-file processing
errors, and the claimed equation holds exactly when no access-error
callback occurred. Every visited file whose processing returns nil is
counted as copied, up-to-date files included. -/
theorem C10_amended_tally (strat : Strategy) (now : Int)
    (events : List WalkEvent) (fs : DstFS) :
    (streamSyncPass strat now events fs).tally.skippedCount = 0 ∧
    (streamSyncPass strat now events fs).tally.fileCount + countAccess events =
      (streamSyncPass strat now events fs).tally.copiedCount +
        (streamSyncPass strat now events fs).tally.errorCount := by
  constructor
  · have h := pass_skipped strat now events ⟨Tally.zero, fs, []⟩
    simp only [streamSyncPass, Tally.zero] at h ⊢
    omega
  · have h := pass_counters strat now events ⟨Tally.zero, fs, []⟩
    simp only [streamSyncPass, Tally.zero] at h ⊢
    omega

/-- C2 counterexample: a run whose copy pass records one per-entry error
(an unreadable source file) still reports success to the caller, because
the per-entry error counters are only logged and the walk callback always
returns nil. -/
theorem C2_counterexample :
    (streamSyncPass Strategy.modtime 0
        [WalkEvent.fileEntry (some (["a.txt"])) fileUnreadable]
        fsEmpty).tally.errorCount = 1 ∧
    (synchronizerSync true ⟨false, "modtime"⟩ 0
        [WalkEvent.fileEntry (some (["a.txt"])) fileUnreadable]
        probeFound fsEmpty).1 = false := by
  exact ⟨by decide, by decide⟩

/-- C2 (amended): the caller-visible outcome of Synchronizer.Sync is a
failure exactly when root validation failed or the update method is
unsupported; per-entry errors of either pass never reach the caller. -/
theorem C2_amended_outcome (vOk : Bool) (cfg : RunConfig) (now : Int)
    (events : List WalkEvent) (probe : RelPath → StatRes) (fs : DstFS) :
    (synchronizerSync vOk cfg now events probe fs).1 =
      (!vOk || (NewUpdateStrategy cfg.updateMethod).isNone) := by
  cases h : NewUpdateStrategy cfg.updateMethod <;>
    simp [synchronizerSync, streamSync, h]

/-- C5 counterexample: an error-free modtime copy pass over a destination
file with the same size and modification time but different bytes leaves
the stale bytes in place, so completeness with byte-identical content
fails for the modtime strategy. -/
theorem C5_counterexample :
    (streamSyncPass Strategy.modtime 0
        [WalkEvent.fileEntry (some (["a.txt"])) fileHello]
        ⟨[((["a.txt"]), fileShadow)], [[]]⟩).tally.errorCount = 0 ∧
    (streamSyncPass Strategy.modtime 0
        [WalkEvent.fileEntry (some (["a.txt"])) fileHello]
        ⟨[((["a.txt"]), fileShadow)], [[]]⟩).fs.stat (["a.txt"]) = some fileShadow ∧
    fileShadow.content ≠ fileHello.content := by
  exact ⟨by decide, by decide, by decide⟩

/-- C1 counterexample: a run whose root validation fails still executes
the copy pass (a.txt is copied into the destination) and the deletion pass
(x.txt is deleted), refuting the claim that neither Copying nor Sweeping
executes after a fatal validation error. -/
theorem C1_counterexample :
    (synchronizerSync false ⟨true, "modtime"⟩ 0 evSingle
        (fun p => if p = ["a.txt"] then StatRes.found else StatRes.notFound)
        ⟨[((["x.txt"]), fileExtra)], []⟩).1 = true ∧
    (synchronizerSync false ⟨true, "modtime"⟩ 0 evSingle
        (fun p => if p = ["a.txt"] then StatRes.found else StatRes.notFound)
        ⟨[((["x.txt"]), fileExtra)], []⟩).2.stat (["a.txt"]) =
      some (copiedFileInfo 0 fileHello) ∧
    (synchronizerSync false ⟨true, "modtime"⟩ 0 evSingle
        (fun p => if p = ["a.txt"] then StatRes.found else StatRes.notFound)
        ⟨[((["x.txt"]), fileExtra)], []⟩).2.stat (["x.txt"]) = none := by
  exact ⟨by decide, by decide, by decide⟩

/-- C1 (amended): a validation failure only sets the failure flag that the
run reports at the end; the copy pass and, when enabled, the deletion pass
still run, leaving exactly the destination state they would leave after a
successful validation. -/
theorem C1_amended_no_halt (cfg : RunConfig) (now : Int)
    (events : List WalkEvent) (probe : RelPath → StatRes) (fs : DstFS)
    (vOk : Bool) (h : vOk = false) :
    (synchronizerSync vOk cfg now events probe fs).1 = true ∧
    (synchronizerSync vOk cfg now events probe fs).2 =
      (synchronizerSync true cfg now events probe fs).2 := by
  subst h
  exact ⟨by simp [synchronizerSync], rfl⟩

/-- Closed instance of C1_amended_no_halt at a concrete failed-validation
run. -/
theorem C1_witness :
    ((false : Bool) = false) ∧
    ((synchronizerSync false ⟨false, "sha256"⟩ 0 evSingle probeFound fsEmpty).1 = true ∧
     (synchronizerSync false ⟨false, "sha256"⟩ 0 evSingle probeFound fsEmpty).2 =
       (synchronizerSync true ⟨false, "sha256"⟩ 0 evSingle probeFound fsEmpty).2) :=
  ⟨rfl, C1_amended_no_halt ⟨false, "sha256"⟩ 0 evSingle probeFound fsEmpty false rfl⟩

/-- C7 counterexample: with the invalid method lz4 and delete-missing
enabled, the run aborts the copy pass (a.txt is never copied) but the
deletion pass still runs and deletes x.txt, refuting the claim that no
deletion occurs before any file is touched. -/
theorem C7_counterexample :
    (synchronizerSync true ⟨true, "lz4"⟩ 0 evSingle
        (fun _ => StatRes.notFound)
        ⟨[((["x.txt"]), fileExtra)], []⟩).1 = true ∧
    (synchronizerSync true ⟨true, "lz4"⟩ 0 evSingle
        (fun _ => StatRes.notFound)
        ⟨[((["x.txt"]), fileExtra)], []⟩).2.stat (["a.txt"]) = none ∧
    (synchronizerSync true ⟨true, "lz4"⟩ 0 evSingle
        (fun _ => StatRes.notFound)
        ⟨[((["x.txt"]), fileExtra)], []⟩).2.stat (["x.txt"]) = none := by
  exact ⟨by decide, by decide, by decide⟩

/-- C7 (amended): the factory returns the modtime strategy for modtime and
the sha256 strategy for sha256 and fails for every other string, the empty
string included, with no default; an invalid method makes the copy pass
abort before any traversal or copy and the run report failure, but when
delete-missing is enabled the deletion pass still runs over the untouched
destination. -/
theorem C7_amended_factory :
    NewUpdateStrategy ("modtime") = some Strategy.modtime ∧
    NewUpdateStrategy ("sha256") = some Strategy.sha256 ∧
    (∀ m : String, m ≠ ("modtime") → m ≠ ("sha256") →
      NewUpdateStrategy m = none ∧
      (∀ (now : Int) (events : List WalkEvent) (fs : DstFS),
        streamSync m now events fs = none) ∧
      (∀ (vOk dm : Bool) (now : Int) (events : List WalkEvent)
          (probe : RelPath → StatRes) (fs : DstFS),
        (synchronizerSync vOk ⟨dm, m⟩ now events probe fs).1 = true ∧
        (synchronizerSync vOk ⟨dm, m⟩ now events probe fs).2 =
          (if dm then (DeleteMissing probe fs).2 else fs))) := by
  refine ⟨rfl, rfl, ?_⟩
  intro m h1 h2
  have hm : NewUpdateStrategy m = none := by
    unfold NewUpdateStrategy
    split
    · exact absurd rfl h1
    · exact absurd rfl h2
    · rfl
  refine ⟨hm, ?_, ?_⟩
  · intro now events fs
    simp [streamSync, hm]
  · intro vOk dm now events probe fs
    constructor
    · simp [synchronizerSync, streamSync, hm]
    · simp [synchronizerSync, streamSync, hm]

/-- Closed instance of C7_amended_factory at the method lz4. -/
theorem C7_witness :
    (("lz4" : String) ≠ ("modtime")) ∧ (("lz4" : String) ≠ ("sha256")) ∧
    NewUpdateStrategy ("lz4") = none ∧
    streamSync ("lz4") 0 evSingle fsEmpty = none ∧
    (synchronizerSync true ⟨true, "lz4"⟩ 0 evSingle probeFound fsEmpty).1 = true :=
  ⟨by decide, by decide,
   (C7_amended_factory.2.2 ("lz4") (by decide) (by decide)).1,
   (C7_amended_factory.2.2 ("lz4") (by decide) (by decide)).2.1 0 evSingle fsEmpty,
   ((C7_amended_factory.2.2 ("lz4") (by decide) (by decide)).2.2 true true 0 evSingle
     probeFound fsEmpty).1⟩

/-- C4: when a copy pass finishes without any error over a walk whose
relative paths are distinct and whose source files are all stat-able (so
that the os.Chtimes call preserves each modification time), an immediately
repeated pass with the unchanged source performs no byte transfer, records
no error, and leaves the destination untouched, under either strategy. -/
theorem C4_idempotent (strat : Strategy) (now later : Int)
    (events : List WalkEvent) (fs : DstFS)
    (hnd : (relsOf events).Nodup)
    (hst : ∀ e ∈ fileBindings events, e.2.statable = true)
    (herr : (streamSyncPass strat now events fs).tally.errorCount = 0) :
    (streamSyncPass strat later events
        (streamSyncPass strat now events fs).fs).transfers = [] ∧
    (streamSyncPass strat later events
        (streamSyncPass strat now events fs).fs).tally.errorCount = 0 ∧
    (streamSyncPass strat later events
        (streamSyncPass strat now events fs).fs).fs =
      (streamSyncPass strat now events fs).fs := by
  have herr0 : (events.foldl (syncStep strat now) ⟨Tally.zero, fs, []⟩).tally.errorCount =
      (⟨Tally.zero, fs, []⟩ : PassState).tally.errorCount := herr
  have hpost := pass_post strat now events ⟨Tally.zero, fs, []⟩ hnd
    (fun e he => selfUpToDate_of_statable strat now e.2 (hst e he)) herr0
  have hoks := pass_ok_events strat now events ⟨Tally.zero, fs, []⟩ herr0
  have hhyp : ∀ ev ∈ events, (∃ p, ev = WalkEvent.dirEntry p) ∨
      ∃ p info, ev = WalkEvent.fileEntry (some p) info ∧
        ∃ f, (⟨Tally.zero, (streamSyncPass strat now events fs).fs, []⟩ :
            PassState).fs.stat p = some f ∧
          f.statable = true ∧ strat.NeedsUpdate info f = some false := by
    intro ev hev
    rcases hoks ev hev with hd | ⟨p, info, hfile⟩
    · exact Or.inl hd
    · refine Or.inr ⟨p, info, hfile, ?_⟩
      have hmem : (p, info) ∈ fileBindings events := by
        rw [fileBindings, List.mem_filterMap]
        exact ⟨WalkEvent.fileEntry (some p) info, hfile ▸ hev, rfl⟩
      obtain ⟨f, hf1, hf2, hf3⟩ := hpost (p, info) hmem
      exact ⟨f, hf1, hf2, hf3⟩
  obtain ⟨h1, h2, h3⟩ := pass_stable strat later events
    ⟨Tally.zero, (streamSyncPass strat now events fs).fs, []⟩ hhyp
  exact ⟨h2, h3, h1⟩

/-- Closed instance of C4_idempotent: a fresh one-file copy followed by a
repeated pass that transfers nothing. -/
theorem C4_witness :
    ((relsOf evSingle).Nodup ∧
     (∀ e ∈ fileBindings evSingle, e.2.statable = true) ∧
     (streamSyncPass Strategy.modtime 3 evSingle fsEmpty).tally.errorCount = 0) ∧
    ((streamSyncPass Strategy.modtime 9 evSingle
        (streamSyncPass Strategy.modtime 3 evSingle fsEmpty).fs).transfers = [] ∧
     (streamSyncPass Strategy.modtime 9 evSingle
        (streamSyncPass Strategy.modtime 3 evSingle fsEmpty).fs).tally.errorCount = 0 ∧
     (streamSyncPass Strategy.modtime 9 evSingle
        (streamSyncPass Strategy.modtime 3 evSingle fsEmpty).fs).fs =
       (streamSyncPass Strategy.modtime 3 evSingle fsEmpty).fs) :=
  ⟨⟨by decide, by decide, by decide⟩,
   C4_idempotent Strategy.modtime 3 9 evSingle fsEmpty (by decide) (by decide) (by decide)⟩

/-- C5 (amended): after a copy pass under the sha256 strategy that records
no error, over a walk with distinct relative paths and a well-formed
destination, every walked source file has a destination file at its
relative path with byte-identical content, and every ancestor directory of
that path exists in the destination. Under the modtime strategy the file
also exists but its bytes can differ when size and modification time
coincide (see the counterexample). -/
theorem C5_amended_sha256 (now : Int) (events : List WalkEvent) (fs : DstFS)
    (p : RelPath) (info : FileInfo)
    (hnd : (relsOf events).Nodup) (hwf : wfDirs fs)
    (herr : (streamSyncPass Strategy.sha256 now events fs).tally.errorCount = 0)
    (hmem : (p, info) ∈ fileBindings events) :
    ∃ f, (streamSyncPass Strategy.sha256 now events fs).fs.stat p = some f ∧
      f.content = info.content ∧
      ∀ d ∈ parentDirs p, d ∈ (streamSyncPass Strategy.sha256 now events fs).fs.dirs := by
  have herr0 : (events.foldl (syncStep Strategy.sha256 now)
      ⟨Tally.zero, fs, []⟩).tally.errorCount =
      (⟨Tally.zero, fs, []⟩ : PassState).tally.errorCount := herr
  obtain ⟨f, hf1, hf2, hf3⟩ := pass_post Strategy.sha256 now events ⟨Tally.zero, fs, []⟩
    hnd (fun e _ => selfUpToDate_sha256 now e.2) herr0 (p, info) hmem
  refine ⟨f, hf1, sha256_upToDate_content hf3, ?_⟩
  have hwff := wf_pass Strategy.sha256 now events ⟨Tally.zero, fs, []⟩ hwf
  exact hwff (p, f) (lookupFile_mem hf1)

/-- Closed instance of C5_amended_sha256 at a fresh one-file copy. -/
theorem C5_witness :
    ((relsOf evSingle).Nodup ∧ wfDirs fsEmpty ∧
     (streamSyncPass Strategy.sha256 7 evSingle fsEmpty).tally.errorCount = 0 ∧
     ((["a.txt"], fileHello) ∈ fileBindings evSingle)) ∧
    (∃ f, (streamSyncPass Strategy.sha256 7 evSingle fsEmpty).fs.stat (["a.txt"]) = some f ∧
      f.content = fileHello.content ∧
      ∀ d ∈ parentDirs (["a.txt"]),
        d ∈ (streamSyncPass Strategy.sha256 7 evSingle fsEmpty).fs.dirs) :=
  ⟨⟨by decide, fun e he => absurd he (List.not_mem_nil e), by decide, by decide⟩,
   C5_amended_sha256 7 evSingle fsEmpty (["a.txt"]) fileHello (by decide)
     (fun e he => absurd he (List.not_mem_nil e)) (by decide) (by decide)⟩

/-- C8: the missing-file sweep keeps every destination file whose
relative path the source-side probe finds, regardless of content; on a
probe error other than not-found it keeps the file and records an error;
it deletes a file only when the probe positively reports not-found, and
when the probe reports not-found and the remove call succeeds the file is
deleted. -/
theorem C8_conservative (probe : RelPath → StatRes) (fs : DstFS)
    (p : RelPath) (info : FileInfo)
    (hnd : (fs.files.map (fun e => e.1)).Nodup)
    (hmem : (p, info) ∈ fs.files) :
    ((DeleteMissing probe fs).2.stat p = none → probe p = StatRes.notFound) ∧
    (probe p = StatRes.found → (DeleteMissing probe fs).2.stat p = some info) ∧
    (probe p = StatRes.statErr → (DeleteMissing probe fs).2.stat p = some info ∧
      1 ≤ (DeleteMissing probe fs).1.errorCount) ∧
    (probe p = StatRes.notFound → info.removable = true →
      (DeleteMissing probe fs).2.stat p = none) := by
  have hstat0 : fs.stat p = some info := lookupFile_of_mem_nodup hmem hnd
  obtain ⟨l1, l2, hsplit⟩ := List.append_of_mem hmem
  have hkeys : fs.files.map (fun e => e.1) =
      l1.map (fun e => e.1) ++ p :: l2.map (fun e => e.1) := by
    rw [hsplit]
    simp
  rw [hkeys] at hnd
  obtain ⟨hn1, hn2, hdisj⟩ := List.nodup_append.mp hnd
  have hp1 : p ∉ l1.map (fun e => e.1) := fun hc =>
    (List.disjoint_left.mp hdisj hc) (List.mem_cons_self _ _)
  have hp2 : p ∉ l2.map (fun e => e.1) := (List.nodup_cons.mp hn2).1
  have hne1 : ∀ e ∈ l1, e.1 ≠ p := fun e he hc =>
    hp1 (hc ▸ List.mem_map_of_mem (fun e => e.1) he)
  have hne2 : ∀ e ∈ l2, e.1 ≠ p := fun e he hc =>
    hp2 (hc ▸ List.mem_map_of_mem (fun e => e.1) he)
  have hD : DeleteMissing probe fs =
      l2.foldl (sweepStep probe)
        (sweepStep probe (l1.foldl (sweepStep probe) (⟨0, 0, 0⟩, fs)) (p, info)) := by
    simp only [DeleteMissing]
    rw [hsplit, List.foldl_append, List.foldl_cons]
  have hs1 : (l1.foldl (sweepStep probe) ((⟨0, 0, 0⟩ : SweepTally), fs)).2.stat p =
      some info := by
    rw [sweep_stat_frame probe l1 _ p hne1]
    exact hstat0
  rcases hp : probe p with _ | _ | _
  · have hfin : (DeleteMissing probe fs).2.stat p = some info := by
      rw [hD, sweep_stat_frame probe l2 _ p hne2]
      simp only [sweepStep, hp]
      exact hs1
    refine ⟨?_, fun _ => hfin, ?_, ?_⟩
    · intro hc
      rw [hfin] at hc
      exact Option.noConfusion hc
    · intro hc
      exact StatRes.noConfusion hc
    · intro hc
      exact StatRes.noConfusion hc
  · by_cases hrm : info.removable = true
    · have hfin : (DeleteMissing probe fs).2.stat p = none := by
        rw [hD, sweep_stat_frame probe l2 _ p hne2]
        simp only [sweepStep, hp, hrm, if_true]
        rw [stat_remove, if_pos rfl]
      refine ⟨fun _ => rfl, ?_, ?_, fun _ _ => hfin⟩
      · intro hc
        exact StatRes.noConfusion hc
      · intro hc
        exact StatRes.noConfusion hc
    · rw [Bool.not_eq_true] at hrm
      have hfin : (DeleteMissing probe fs).2.stat p = some info := by
        rw [hD, sweep_stat_frame probe l2 _ p hne2]
        simp only [sweepStep, hp, hrm, Bool.false_eq_true, if_false]
        exact hs1
      refine ⟨fun _ => rfl, ?_, ?_, ?_⟩
      · intro hc
        exact StatRes.noConfusion hc
      · intro hc
        exact StatRes.noConfusion hc
      · intro _ hc
        rw [hc] at hrm
        exact Bool.noConfusion hrm
  · have hfin : (DeleteMissing probe fs).2.stat p = some info := by
      rw [hD, sweep_stat_frame probe l2 _ p hne2]
      simp only [sweepStep, hp]
      exact hs1
    have herr : 1 ≤ (DeleteMissing probe fs).1.errorCount := by
      have h1 : (sweepStep probe (l1.foldl (sweepStep probe) (⟨0, 0, 0⟩, fs))
          (p, info)).1.errorCount =
          (l1.foldl (sweepStep probe) ((⟨0, 0, 0⟩ : SweepTally), fs)).1.errorCount + 1 := by
        simp only [sweepStep, hp]
      have h2 := sweep_err_le probe l2
        (sweepStep probe (l1.foldl (sweepStep probe) (⟨0, 0, 0⟩, fs)) (p, info))
      rw [hD]
      omega
    refine ⟨?_, ?_, fun _ => ⟨hfin, herr⟩, ?_⟩
    · intro hc
      rw [hfin] at hc
      exact Option.noConfusion hc
    · intro hc
      exact StatRes.noConfusion hc
    · intro hc
      exact StatRes.noConfusion hc

/-- Closed instance of C8_conservative: a destination file whose relative
path the probe finds in the source survives the sweep. -/
theorem C8_witness :
    ((dstKeep.files.map (fun e => e.1)).Nodup ∧
     ((["keep.txt"], fileHello) ∈ dstKeep.files)) ∧
    (((DeleteMissing probeFound dstKeep).2.stat (["keep.txt"]) = none →
        probeFound (["keep.txt"]) = StatRes.notFound) ∧
     (probeFound (["keep.txt"]) = StatRes.found →
        (DeleteMissing probeFound dstKeep).2.stat (["keep.txt"]) = some fileHello) ∧
     (probeFound (["keep.txt"]) = StatRes.statErr →
        (DeleteMissing probeFound dstKeep).2.stat (["keep.txt"]) = some fileHello ∧
        1 ≤ (DeleteMissing probeFound dstKeep).1.errorCount) ∧
     (probeFound (["keep.txt"]) = StatRes.notFound → fileHello.removable = true →
        (DeleteMissing probeFound dstKeep).2.stat (["keep.txt"]) = none)) :=
  ⟨⟨by decide, by decide⟩,
   C8_conservative probeFound dstKeep (["keep.txt"]) fileHello (by decide) (by decide)⟩

/-- C9: over a fresh destination, a copy pass on a source listing of N
regular files with distinct relative paths of which exactly one is
unreadable visits all N files, copies the other N-1 (each lands in the
destination with the source bytes and one transfer is logged per copy),
and records exactly one error; the single failure never halts the walk. -/
theorem C9_error_isolation (strat : Strategy) (now : Int)
    (l : List (RelPath × FileInfo))
    (hnd : (l.map (fun e => e.1)).Nodup)
    (hbad : l.countP (fun e => !e.2.readable) = 1) :
    (streamSyncPass strat now
        (l.map (fun e => WalkEvent.fileEntry (some e.1) e.2))
        fsEmpty).tally.fileCount = l.length ∧
    (streamSyncPass strat now
        (l.map (fun e => WalkEvent.fileEntry (some e.1) e.2))
        fsEmpty).tally.copiedCount = l.length - 1 ∧
    (streamSyncPass strat now
        (l.map (fun e => WalkEvent.fileEntry (some e.1) e.2))
        fsEmpty).tally.skippedCount = 0 ∧
    (streamSyncPass strat now
        (l.map (fun e => WalkEvent.fileEntry (some e.1) e.2))
        fsEmpty).tally.errorCount = 1 ∧
    (streamSyncPass strat now
        (l.map (fun e => WalkEvent.fileEntry (some e.1) e.2))
        fsEmpty).transfers.length = l.length - 1 ∧
    (∀ e ∈ l, e.2.readable = true →
      (streamSyncPass strat now
          (l.map (fun e => WalkEvent.fileEntry (some e.1) e.2))
          fsEmpty).fs.stat e.1 = some (copiedFileInfo now e.2)) := by
  have hnone : ∀ e ∈ l,
      (⟨Tally.zero, fsEmpty, []⟩ : PassState).fs.stat e.1 = none := fun e _ => rfl
  obtain ⟨i1, i2, i3, i4, i5⟩ :=
    pass_fresh strat now l ⟨Tally.zero, fsEmpty, []⟩ hnd hnone
  have hsum := countP_readable_split l
  have hsk := pass_skipped strat now
    (l.map (fun e => WalkEvent.fileEntry (some e.1) e.2)) ⟨Tally.zero, fsEmpty, []⟩
  simp only [streamSyncPass, Tally.zero]
  simp only [Tally.zero, List.length_nil] at i1 i2 i3 i4 hsk
  exact ⟨by omega, by omega, by omega, by omega, by omega, i5⟩

/-- Closed instance of C9_error_isolation at a two-file listing with one
unreadable file. -/
theorem C9_witness :
    ((lOneBad.map (fun e => e.1)).Nodup ∧
     lOneBad.countP (fun e => !e.2.readable) = 1) ∧
    ((streamSyncPass Strategy.modtime 0
        (lOneBad.map (fun e => WalkEvent.fileEntry (some e.1) e.2))
        fsEmpty).tally.fileCount = lOneBad.length ∧
     (streamSyncPass Strategy.modtime 0
        (lOneBad.map (fun e => WalkEvent.fileEntry (some e.1) e.2))
        fsEmpty).tally.copiedCount = lOneBad.length - 1 ∧
     (streamSyncPass Strategy.modtime 0
        (lOneBad.map (fun e => WalkEvent.fileEntry (some e.1) e.2))
        fsEmpty).tally.skippedCount = 0 ∧
     (streamSyncPass Strategy.modtime 0
        (lOneBad.map (fun e => WalkEvent.fileEntry (some e.1) e.2))
        fsEmpty).tally.errorCount = 1 ∧
     (streamSyncPass Strategy.modtime 0
        (lOneBad.map (fun e => WalkEvent.fileEntry (some e.1) e.2))
        fsEmpty).transfers.length = lOneBad.length - 1 ∧
     (∀ e ∈ lOneBad, e.2.readable = true →
       (streamSyncPass Strategy.modtime 0
          (lOneBad.map (fun e => WalkEvent.fileEntry (some e.1) e.2))
          fsEmpty).fs.stat e.1 = some (copiedFileInfo 0 e.2))) :=
  ⟨⟨by decide, by decide⟩,
   C9_error_isolation Strategy.modtime 0 lOneBad (by decide) (by decide)⟩
